import Mathlib

/-!
Verification of the route enumerator / scorer of `flask_shipping_optimizer.py`.

The program's data and operations are shallowly embedded:
* port identifiers are `String`s, the adjacency table is an association list
  `List (String × List String)` mirroring the Python dict `ADJ`;
* the iterative generator `enumerate_simple_paths` becomes a fuel-indexed
  step function on the explicit stack of `(node, path)` pairs (each unit of
  fuel processes one `stack.pop()`); every run of the Python generator is a
  run with sufficiently large fuel, and all properties are proved for every
  fuel;
* real arithmetic of the cost model is embedded as `ℚ` (idealised,
  overflow-free machine reals); the distances held in `EDGES` /
  `compute_edge_info` are abstracted as a function on the sorted pair of
  endpoints, exactly as the dictionary keyed by `tuple(sorted((a, b)))` is;
* `haversine_km` (transcendental arithmetic) is embedded over `ℝ`.
-/

namespace ShippingOptimizer

/-- `ADJ` from the source: adjacency table of the port graph. -/
def ADJ : List (String × List String) :=
  [("IDX", ["HKG", "SHA"]),
   ("HKG", ["IDX", "SIN", "SHA", "DXB"]),
   ("SIN", ["HKG", "SHA", "PTY"]),
   ("SHA", ["IDX", "HKG", "SIN", "DXB"]),
   ("PTY", ["SIN", "LAX"]),
   ("LAX", ["PTY", "DXB"]),
   ("DXB", ["HKG", "SHA", "LAX"]),
   ("CNS", ["HKG", "SHA"])]

/-- `graph.get(node, [])`: neighbours of `n` in the adjacency dict,
`[]` if `n` is not a key. -/
def lookupAdj (g : List (String × List String)) (n : String) : List String :=
  match g.find? (fun e => e.1 == n) with
  | some e => e.2
  | none => []

/-- The node set of a graph: its keys together with every port appearing in
some adjacency list. -/
def graphNodes (g : List (String × List String)) : List String :=
  g.map (fun e => e.1) ++ (g.map (fun e => e.2)).flatten

/-- One `while stack` loop of `enumerate_simple_paths`, fuel-indexed: each
unit of fuel processes one popped `(node, path)` entry.  The popped entry is
first checked against `len(path)-1 > max_hops`; then every neighbour not
already in `path` either yields `path + [nbr]` (when it is the destination)
or is pushed for further expansion.  The Python list is used as a LIFO
stack (`append`/`pop` at the end); here the head of the list is the top, so
the entries pushed by one iteration are prepended in reverse order. -/
def dfsAux (adj : String → List String) (dest : String) (maxHops : Nat) :
    Nat → List (String × List String) → List (List String)
  | 0, _ => []
  | _ + 1, [] => []
  | fuel + 1, (node, path) :: stack =>
    if path.length - 1 > maxHops then
      dfsAux adj dest maxHops fuel stack
    else
      let nbrs := (adj node).filter (fun nbr => !path.contains nbr)
      ((nbrs.filter (fun nbr => nbr == dest)).map (fun nbr => path ++ [nbr])) ++
        dfsAux adj dest maxHops fuel
          (((nbrs.filter (fun nbr => nbr != dest)).map
              (fun nbr => (nbr, path ++ [nbr]))).reverse ++ stack)

/-- `enumerate_simple_paths(graph, source, dest, max_hops)`: all paths the
generator yields, with the given fuel bound on loop iterations. -/
def enumerate_simple_paths (g : List (String × List String))
    (source dest : String) (maxHops : Nat) (fuel : Nat) : List (List String) :=
  dfsAux (lookupAdj g) dest maxHops fuel [(source, [source])]

/-! ## Cost model (`path_cost_and_time`)

Real arithmetic is embedded as `ℚ`.  `round(x, 2)` becomes `round2`.  The
distance obtained from `EDGES.get(tuple(sorted((a, b))))`, falling back to
`compute_edge_info(a, b)` (itself symmetric in `a, b`), is abstracted as a
function `dist` applied to the sorted pair of endpoints. -/

/-- `BASE_HANDLING_COST` from the source. -/
def BASE_HANDLING_COST : ℚ := 500

/-- `FUEL_PRICE_PER_KM` from the source. -/
def FUEL_PRICE_PER_KM : ℚ := 12 / 100

/-- `DEFAULT_VESSEL_SPEED_KMH` from the source. -/
def DEFAULT_VESSEL_SPEED_KMH : ℚ := 20

/-- Python's `round(x, 2)`: round to two decimal places. -/
def round2 (x : ℚ) : ℚ := (round (x * 100) : ℤ) / 100

/-- Python's `<=` on strings: lexicographic comparison by code point. -/
def pyStrLeAux : List Char → List Char → Bool
  | [], _ => true
  | _ :: _, [] => false
  | c :: cs, d :: ds =>
    if c.toNat < d.toNat then true
    else if d.toNat < c.toNat then false
    else pyStrLeAux cs ds

/-- Python's `a <= b` on strings. -/
def pyStrLe (a b : String) : Bool := pyStrLeAux a.data b.data

/-- The distance used for the edge `(a, b)`: the lookup key is
`tuple(sorted((a, b)))`, so the pair is put in ascending order before
applying the distance table `dist`. -/
def edgeDist (dist : String → String → ℚ) (a b : String) : ℚ :=
  if pyStrLe a b then dist a b else dist b a

/-- The `{'cost': ..., 'time_h': ...}` record returned by
`path_cost_and_time`. -/
structure CostTime where
  cost : ℚ
  time_h : ℚ
deriving DecidableEq, Repr

/-- `path_cost_and_time(path, vessel_capacity, port_handling_overrides,
speed_kmh, fuel_price_per_km)`: first loop accumulates per-node handling
costs (`overrides.get(node, BASE_HANDLING_COST)`), second loop walks the
consecutive pairs of the path adding
`dist * fuel_price_per_km * max(0.5, vessel_capacity / 1000)` to the cost
and `dist / speed_kmh` to the time; both totals are rounded to 2 decimal
places. -/
def path_cost_and_time (dist : String → String → ℚ) (path : List String)
    (vessel_capacity : ℚ) (port_handling_overrides : String → Option ℚ)
    (speed_kmh fuel_price_per_km : ℚ) : CostTime :=
  let total_cost := path.foldl
    (fun acc node => acc + ((port_handling_overrides node).getD BASE_HANDLING_COST)) 0
  let totals := (path.zip path.tail).foldl
    (fun (acc : ℚ × ℚ) e =>
      let d := edgeDist dist e.1 e.2
      let capacity_factor := max (1 / 2) (vessel_capacity / 1000)
      (acc.1 + d * fuel_price_per_km * capacity_factor, acc.2 + d / speed_kmh))
    (total_cost, 0)
  ⟨round2 totals.1, round2 totals.2⟩

/-- Closed form of the handling-cost accumulation of `path_cost_and_time`. -/
def handling_sum (ov : String → Option ℚ) (path : List String) : ℚ :=
  (path.map (fun n => (ov n).getD BASE_HANDLING_COST)).sum

/-- Closed form of the edge-cost component accumulated by
`path_cost_and_time` (before the final rounding). -/
def edge_cost_sum (dist : String → String → ℚ) (path : List String)
    (vessel_capacity fuel_price_per_km : ℚ) : ℚ :=
  ((path.zip path.tail).map
    (fun e => edgeDist dist e.1 e.2 * fuel_price_per_km
      * max (1 / 2) (vessel_capacity / 1000))).sum

/-- Closed form of the travel-time component accumulated by
`path_cost_and_time` (before the final rounding). -/
def edge_time_sum (dist : String → String → ℚ) (path : List String)
    (speed_kmh : ℚ) : ℚ :=
  ((path.zip path.tail).map (fun e => edgeDist dist e.1 e.2 / speed_kmh)).sum

/-! ## Candidate selection (`optimize` / `api_optimize`) -/

/-- A `{'path': ..., 'cost': ..., 'time_h': ...}` candidate record. -/
structure Candidate where
  path : List String
  cost : ℚ
  time_h : ℚ
deriving DecidableEq, Repr

/-- The `candidates` list built by `optimize` / `api_optimize`: every
enumerated path is scored, and appended exactly when its (rounded) time
does not exceed the deadline.  The call site fixes `max_hops = 6`. -/
def optimize_candidates (dist : String → String → ℚ)
    (g : List (String × List String)) (origin destination : String)
    (capacity speed deadline fuel_price : ℚ) (overrides : String → Option ℚ)
    (fuel : Nat) : List Candidate :=
  (enumerate_simple_paths g origin destination 6 fuel).filterMap fun path =>
    let info := path_cost_and_time dist path capacity overrides speed fuel_price
    if info.time_h ≤ deadline then some ⟨path, info.cost, info.time_h⟩ else none

/-- Ordered insertion by `cost`, the comparison used by
`sorted(candidates, key=lambda x: x['cost'])`. -/
def insertByCost (c : Candidate) : List Candidate → List Candidate
  | [] => [c]
  | d :: ds => if c.cost ≤ d.cost then c :: d :: ds else d :: insertByCost c ds

/-- Model of Python's `sorted(candidates, key=lambda x: x['cost'])`:
a sort ascending by `cost` (the order among equal-cost candidates is not
specified and is irrelevant to the claims). -/
def sortByCost (l : List Candidate) : List Candidate := l.foldr insertByCost []

/-- `candidates_sorted` of `optimize` / `api_optimize`. -/
def candidates_sorted (dist : String → String → ℚ)
    (g : List (String × List String)) (origin destination : String)
    (capacity speed deadline fuel_price : ℚ) (overrides : String → Option ℚ)
    (fuel : Nat) : List Candidate :=
  sortByCost (optimize_candidates dist g origin destination capacity speed
    deadline fuel_price overrides fuel)

/-- `best = candidates_sorted[0] if candidates_sorted else None`. -/
def best (dist : String → String → ℚ) (g : List (String × List String))
    (origin destination : String) (capacity speed deadline fuel_price : ℚ)
    (overrides : String → Option ℚ) (fuel : Nat) : Option Candidate :=
  (candidates_sorted dist g origin destination capacity speed deadline
    fuel_price overrides fuel).head?

/-! ## Override parsing (`optimize`, lines 217-225)

Strings are handled as `List Char`.  `str.split(sep)` with a one-character
separator, `str.strip()` and `str.upper()` are modelled directly;
Python's `float` constructor is abstracted as a parameter
`pf : List Char → Option ℚ` (`none` = `ValueError`), with `decimalLit`
as its concrete instance on plain unsigned decimal literals. -/

/-- Python `s.split(sep)` for a single-character separator: splits at every
occurrence, keeping empty pieces, so the result always has one more piece
than there are separators (`"".split(sep) == [""]`). -/
def pySplit (sep : Char) (s : List Char) : List (List Char) :=
  s.foldr
    (fun c acc =>
      if c = sep then [] :: acc
      else
        match acc with
        | t :: ts => (c :: t) :: ts
        | [] => [[c]])
    [[]]

/-- Python `s.strip()`: drop whitespace from both ends. -/
def pyStrip (s : List Char) : List Char :=
  ((s.dropWhile Char.isWhitespace).reverse.dropWhile Char.isWhitespace).reverse

/-- Python `s.upper()` (on the ASCII port codes used here). -/
def pyUpper (s : List Char) : List Char := s.map Char.toUpper

/-- Dictionary assignment `d[k] = v` for the overrides dict, viewed as a
lookup function. -/
def dictInsert (d : List Char → Option ℚ) (k : List Char) (v : ℚ) :
    List Char → Option ℚ :=
  fun x => if x = k then some v else d x

/-- The `for part in overrides_raw.split(','):` loop body, with its
enclosing `try/except`: `k, v = part.split(':')` raises unless the split
has exactly two pieces, `float(v)` may raise, and either exception aborts
the whole loop (it is caught outside the `for`), keeping the dictionary
entries already assigned. -/
def overridesLoop (pf : List Char → Option ℚ) :
    List (List Char) → (List Char → Option ℚ) → (List Char → Option ℚ)
  | [], d => d
  | part :: rest, d =>
    match pySplit ':' part with
    | [k, v] =>
      match pf v with
      | some q => overridesLoop pf rest (dictInsert d (pyUpper (pyStrip k)) q)
      | none => d
    | _ => d

/-- The override-parsing block of `optimize`:
`overrides_raw = ...strip()`, `overrides = {}` and, when `overrides_raw`
is non-empty, the guarded parsing loop. -/
def parse_overrides (pf : List Char → Option ℚ) (raw : List Char) :
    List Char → Option ℚ :=
  let s := pyStrip raw
  if s = [] then fun _ => none
  else overridesLoop pf (pySplit ',' s) (fun _ => none)

/-- Whether one `code:value` token parses without an exception: the colon
split yields exactly two pieces and `float` accepts the second. -/
def tokenOk (pf : List Char → Option ℚ) (part : List Char) : Bool :=
  match pySplit ':' part with
  | [_, v] => (pf v).isSome
  | _ => false

/-- Numeric value of a digit string. -/
def natVal (cs : List Char) : ℕ :=
  cs.foldl (fun a c => 10 * a + (c.toNat - 48)) 0

/-- Python's `float` constructor restricted to plain unsigned decimal
literals (`"600"`, `"0.5"`, ...), the only shapes the claims exercise;
anything else is `none` (a `ValueError`). -/
def decimalLit (s₀ : List Char) : Option ℚ :=
  let s := pyStrip s₀
  match pySplit '.' s with
  | [w] => if w ≠ [] ∧ w.all Char.isDigit then some (natVal w) else none
  | [w, f] =>
    if (w ++ f) ≠ [] ∧ w.all Char.isDigit ∧ f.all Char.isDigit then
      some ((natVal w : ℚ) + (natVal f : ℚ) / (10 : ℚ) ^ f.length)
    else none
  | _ => none

/-! ## `haversine_km` (over `ℝ`) -/

/-- `math.radians`. -/
noncomputable def radians (x : ℝ) : ℝ := x * Real.pi / 180

/-- `math.atan2(y, x)`. -/
noncomputable def atan2 (y x : ℝ) : ℝ :=
  if 0 < x then Real.arctan (y / x)
  else if x < 0 then
    (if 0 ≤ y then Real.arctan (y / x) + Real.pi
     else Real.arctan (y / x) - Real.pi)
  else if 0 < y then Real.pi / 2
  else if y < 0 then -(Real.pi / 2)
  else 0

/-- The intermediate value `a` computed by `haversine_km`. -/
noncomputable def haversine_a (lat1 lon1 lat2 lon2 : ℝ) : ℝ :=
  let phi1 := radians lat1
  let phi2 := radians lat2
  let dphi := radians (lat2 - lat1)
  let dlambda := radians (lon2 - lon1)
  Real.sin (dphi / 2) ^ 2
    + Real.cos phi1 * Real.cos phi2 * Real.sin (dlambda / 2) ^ 2

/-- `haversine_km(lat1, lon1, lat2, lon2)` with `R = 6371.0`. -/
noncomputable def haversine_km (lat1 lon1 lat2 lon2 : ℝ) : ℝ :=
  let a := haversine_a lat1 lon1 lat2 lon2
  let c := 2 * atan2 (Real.sqrt a) (Real.sqrt (1 - a))
  6371 * c

end ShippingOptimizer
namespace ShippingOptimizer

theorem dfsAux_nil (adj : String → List String) (dest : String) (maxHops fuel : Nat) :
    dfsAux adj dest maxHops fuel [] = [] := by
  cases fuel <;> rfl

theorem dfsAux_sound (adj : String → List String) (dest : String) (maxHops : Nat)
    (Inv : String → List String → Prop) (Goal : List String → Prop)
    (hpush : ∀ n p nbr, Inv n p → nbr ∈ adj n → nbr ∉ p → nbr ≠ dest →
      Inv nbr (p ++ [nbr]))
    (hyield : ∀ n p, Inv n p → p.length - 1 ≤ maxHops → dest ∈ adj n → dest ∉ p →
      Goal (p ++ [dest])) :
    ∀ fuel stack, (∀ e ∈ stack, Inv e.1 e.2) →
      ∀ q ∈ dfsAux adj dest maxHops fuel stack, Goal q := by
  intro fuel
  induction fuel with
  | zero => intro stack _ q hq; simp [dfsAux] at hq
  | succ fuel ih =>
    intro stack hstack q hq
    match stack with
    | [] => simp [dfsAux] at hq
    | (node, path) :: rest =>
      have hInv : Inv node path := hstack (node, path) (List.mem_cons_self _ _)
      have hrest : ∀ e ∈ rest, Inv e.1 e.2 := fun e he =>
        hstack e (List.mem_cons_of_mem _ he)
      rw [dfsAux] at hq
      by_cases hlen : path.length - 1 > maxHops
      · rw [if_pos hlen] at hq
        exact ih rest hrest q hq
      · rw [if_neg hlen] at hq
        simp only [List.mem_append] at hq
        rcases hq with hq | hq
        · simp only [List.mem_map, List.mem_filter, beq_iff_eq] at hq
          obtain ⟨nbr, ⟨⟨hnbr, hnotin⟩, hdest⟩, heq⟩ := hq
          subst hdest
          subst heq
          have hnotin' : nbr ∉ path := by
            simpa using hnotin
          exact hyield node path hInv (Nat.le_of_not_lt hlen) hnbr hnotin'
        · apply ih _ _ q hq
          intro e he
          simp only [List.mem_append, List.mem_reverse, List.mem_map,
            List.mem_filter, bne_iff_ne] at he
          rcases he with ⟨nbr, ⟨⟨hnbr, hnotin⟩, hne⟩, heq⟩ | he
          · subst heq
            have hnotin' : nbr ∉ path := by simpa using hnotin
            exact hpush node path nbr hInv hnbr hnotin' hne
          · exact hrest e he

end ShippingOptimizer
namespace ShippingOptimizer

theorem mem_lookupAdj {g : List (String × List String)} {n x : String}
    (hx : x ∈ lookupAdj g n) : x ∈ graphNodes g := by
  unfold lookupAdj at hx
  cases hfind : g.find? (fun e => e.1 == n) with
  | none => rw [hfind] at hx; simp at hx
  | some e =>
    rw [hfind] at hx
    have he : e ∈ g := List.mem_of_find?_eq_some hfind
    unfold graphNodes
    refine List.mem_append_right _ ?_
    exact List.mem_flatten.mpr ⟨e.2, List.mem_map_of_mem _ he, hx⟩

theorem lookupAdj_eq_nil_of_not_key {g : List (String × List String)} {s : String}
    (hs : ∀ e ∈ g, e.1 ≠ s) : lookupAdj g s = [] := by
  unfold lookupAdj
  rw [List.find?_eq_none.mpr]
  intro e he
  simpa using hs e he

theorem key_mem_graphNodes {g : List (String × List String)} {e : String × List String}
    (he : e ∈ g) : e.1 ∈ graphNodes g :=
  List.mem_append_left _ (List.mem_map_of_mem _ he)

/-- C7: when source = destination, no path is emitted at all; when the
source or the destination is absent from the graph's node set, the emitted
sequence is empty (and, the embedding being total, no exception occurs). -/
theorem claim_C7 (g : List (String × List String)) (s d : String)
    (maxHops fuel : Nat) :
    (s = d → enumerate_simple_paths g s d maxHops fuel = []) ∧
    (s ∉ graphNodes g → enumerate_simple_paths g s d maxHops fuel = []) ∧
    (d ∉ graphNodes g → enumerate_simple_paths g s d maxHops fuel = []) := by
  refine ⟨?_, ?_, ?_⟩
  · intro hsd
    subst hsd
    refine List.eq_nil_iff_forall_not_mem.mpr fun q hq => ?_
    refine dfsAux_sound (lookupAdj g) s maxHops (fun _ p => s ∈ p) (fun _ => False)
      ?_ ?_ fuel _ ?_ q hq
    · intro n p nbr hInv _ _ _
      exact List.mem_append_left _ hInv
    · intro n p hInv _ _ hnot
      exact hnot hInv
    · intro e he
      simp only [List.mem_singleton] at he
      subst he
      exact List.mem_singleton_self _
  · intro hs
    have hadj : lookupAdj g s = [] := by
      refine lookupAdj_eq_nil_of_not_key fun e he heq => ?_
      exact hs (heq ▸ key_mem_graphNodes he)
    cases fuel with
    | zero => rfl
    | succ fuel =>
      show dfsAux (lookupAdj g) d maxHops (fuel + 1) [(s, [s])] = []
      rw [dfsAux]
      split
      · exact dfsAux_nil _ _ _ _
      · simp [hadj, dfsAux_nil]
  · intro hd
    refine List.eq_nil_iff_forall_not_mem.mpr fun q hq => ?_
    refine dfsAux_sound (lookupAdj g) d maxHops (fun _ _ => True) (fun _ => False)
      (fun _ _ _ _ _ _ _ => trivial) ?_ fuel _ (fun _ _ => trivial) q hq
    intro n p _ _ hdadj _
    exact hd (mem_lookupAdj hdadj)

/-- C7 witness: concrete instances of the three edge cases. -/
theorem claim_C7_witness :
    (("A" : String) = "A" ∧
      enumerate_simple_paths [("A", ["B"])] "A" "A" 6 5 = []) ∧
    (("Z" : String) ∉ graphNodes [("A", ["B"])] ∧
      enumerate_simple_paths [("A", ["B"])] "Z" "B" 6 5 = []) ∧
    (("Z" : String) ∉ graphNodes [("A", ["B"])] ∧
      enumerate_simple_paths [("A", ["B"])] "A" "Z" 6 5 = []) :=
  ⟨⟨rfl, (claim_C7 _ "A" "A" 6 5).1 rfl⟩,
   ⟨by decide, (claim_C7 _ "Z" "B" 6 5).2.1 (by decide)⟩,
   ⟨by decide, (claim_C7 _ "A" "Z" 6 5).2.2 (by decide)⟩⟩

/-- C10: every emitted path is simple — no repeated port identifier. -/
theorem claim_C10 (g : List (String × List String)) (s d : String)
    (maxHops fuel : Nat) (q : List String)
    (hq : q ∈ enumerate_simple_paths g s d maxHops fuel) : q.Nodup := by
  refine dfsAux_sound (lookupAdj g) d maxHops (fun _ p => p.Nodup) List.Nodup
    ?_ ?_ fuel _ ?_ q hq
  · intro n p nbr hp _ hnot _
    simpa [List.nodup_append] using ⟨hp, hnot⟩
  · intro n p hp _ _ hnot
    simpa [List.nodup_append] using ⟨hp, hnot⟩
  · intro e he
    simp only [List.mem_singleton] at he
    subst he
    simp

/-- C10 witness: a concrete emitted path, certified duplicate-free. -/
theorem claim_C10_witness :
    (["A", "B"] ∈ enumerate_simple_paths [("A", ["B"])] "A" "B" 6 5) ∧
    (["A", "B"] : List String).Nodup :=
  ⟨by decide, claim_C10 [("A", ["B"])] "A" "B" 6 5 ["A", "B"] (by decide)⟩

set_option maxRecDepth 8000 in
/-- C1 (code bug): on the repository's own graph `ADJ` with the call
site's `max_hops = 6`, the enumeration from `CNS` to `DXB` emits an
8-node path, i.e. one with 7 edges, exceeding the hop limit. -/
theorem claim_C1_bug :
    ["CNS", "HKG", "IDX", "SHA", "SIN", "PTY", "LAX", "DXB"] ∈
      enumerate_simple_paths ADJ "CNS" "DXB" 6 300 ∧
    (["CNS", "HKG", "IDX", "SHA", "SIN", "PTY", "LAX", "DXB"].length - 1 = 7) :=
  ⟨by decide, rfl⟩

end ShippingOptimizer
namespace ShippingOptimizer

theorem handling_fold (ov : String → Option ℚ) :
    ∀ (l : List String) (c : ℚ),
      l.foldl (fun acc node => acc + ((ov node).getD BASE_HANDLING_COST)) c
        = c + handling_sum ov l := by
  intro l
  induction l with
  | nil => intro c; simp [handling_sum]
  | cons n l ih =>
    intro c
    simp only [List.foldl_cons, ih, handling_sum, List.map_cons, List.sum_cons]
    ring

theorem pct_fold (dist : String → String → ℚ) (cap sp fp : ℚ) :
    ∀ (l : List (String × String)) (c t : ℚ),
      l.foldl
        (fun (acc : ℚ × ℚ) e =>
          let d := edgeDist dist e.1 e.2
          let capacity_factor := max (1 / 2) (cap / 1000)
          (acc.1 + d * fp * capacity_factor, acc.2 + d / sp)) (c, t)
      = (c + ((l.map (fun e => edgeDist dist e.1 e.2 * fp
                * max (1 / 2) (cap / 1000))).sum),
         t + ((l.map (fun e => edgeDist dist e.1 e.2 / sp)).sum)) := by
  intro l
  induction l with
  | nil => intro c t; simp
  | cons e l ih =>
    intro c t
    simp only [List.foldl_cons, ih, List.map_cons, List.sum_cons, Prod.mk.injEq]
    exact ⟨by ring, by ring⟩

theorem path_cost_and_time_eq (dist : String → String → ℚ) (path : List String)
    (cap : ℚ) (ov : String → Option ℚ) (sp fp : ℚ) :
    path_cost_and_time dist path cap ov sp fp
      = ⟨round2 (handling_sum ov path + edge_cost_sum dist path cap fp),
         round2 (edge_time_sum dist path sp)⟩ := by
  simp only [path_cost_and_time, edge_cost_sum, edge_time_sum,
    handling_fold, pct_fold, zero_add]

end ShippingOptimizer
namespace ShippingOptimizer

/-- C3: the cost returned by `path_cost_and_time` is the sum over all
nodes of the path (endpoints included) of the handling cost — the override
value when the node is in the overrides mapping, the default 500 otherwise
— plus the sum over consecutive pairs of
`distance * fuel_price * capacity_factor`, rounded to 2 decimal places;
the time is the sum over consecutive pairs of `distance / speed` for the
caller-supplied speed, rounded to 2 decimal places. -/
theorem claim_C3 (dist : String → String → ℚ) (path : List String)
    (cap : ℚ) (ov : String → Option ℚ) (sp fp : ℚ) :
    (path_cost_and_time dist path cap ov sp fp).cost
        = round2 ((path.map (fun n => (ov n).getD 500)).sum
            + ((path.zip path.tail).map
                (fun e => edgeDist dist e.1 e.2 * fp
                  * max (1 / 2) (cap / 1000))).sum) ∧
    (path_cost_and_time dist path cap ov sp fp).time_h
        = round2 (((path.zip path.tail).map
            (fun e => edgeDist dist e.1 e.2 / sp)).sum) := by
  rw [path_cost_and_time_eq]
  exact ⟨rfl, rfl⟩

theorem edge_cost_sum_factor (dist : String → String → ℚ) (path : List String)
    (cap fp : ℚ) :
    edge_cost_sum dist path cap fp
      = ((path.zip path.tail).map (fun e => edgeDist dist e.1 e.2)).sum * fp
          * max (1 / 2) (cap / 1000) := by
  unfold edge_cost_sum
  induction path.zip path.tail with
  | nil => simp
  | cons e l ih =>
    simp only [List.map_cons, List.sum_cons, ih]
    ring

theorem sum_pos_of_mem {l : List ℚ} (h0 : ∀ x ∈ l, 0 ≤ x)
    (hx : ∃ x ∈ l, 0 < x) : 0 < l.sum := by
  induction l with
  | nil => simp at hx
  | cons a l ih =>
    obtain ⟨x, hmem, hxpos⟩ := hx
    rcases List.mem_cons.mp hmem with rfl | hmem
    · have : (0 : ℚ) ≤ l.sum :=
        List.sum_nonneg fun y hy => h0 y (List.mem_cons_of_mem _ hy)
      simp only [List.sum_cons]
      linarith
    · have : 0 < l.sum :=
        ih (fun y hy => h0 y (List.mem_cons_of_mem _ hy)) ⟨x, hmem, hxpos⟩
      have ha : (0 : ℚ) ≤ a := h0 a (List.mem_cons_self _ _)
      simp only [List.sum_cons]
      linarith

/-- C6: for a fixed path with at least one positive-distance edge and a
positive fuel price, the (pre-rounding) edge-cost component of
`path_cost_and_time` is strictly increasing in the capacity on and above
the floor threshold 500, and is constant — equal to the value at capacity
factor 1/2 — for all capacities at or below 500, because the factor is
`max(0.5, capacity / 1000)`. -/
theorem claim_C6 (dist : String → String → ℚ) (path : List String) (fp : ℚ)
    (hfp : 0 < fp)
    (h0 : ∀ e ∈ path.zip path.tail, 0 ≤ edgeDist dist e.1 e.2)
    (hpos : ∃ e ∈ path.zip path.tail, 0 < edgeDist dist e.1 e.2) :
    (∀ c1 c2 : ℚ, 500 ≤ c1 → c1 < c2 →
        edge_cost_sum dist path c1 fp < edge_cost_sum dist path c2 fp) ∧
    (∀ c1 c2 : ℚ, c1 ≤ 500 → c2 ≤ 500 →
        edge_cost_sum dist path c1 fp = edge_cost_sum dist path c2 fp) ∧
    (∀ c : ℚ, c ≤ 500 →
        edge_cost_sum dist path c fp
          = ((path.zip path.tail).map (fun e => edgeDist dist e.1 e.2)).sum
              * fp * (1 / 2)) := by
  have hS : 0 < ((path.zip path.tail).map (fun e => edgeDist dist e.1 e.2)).sum := by
    refine sum_pos_of_mem ?_ ?_
    · intro x hxm
      obtain ⟨e, he, rfl⟩ := List.mem_map.mp hxm
      exact h0 e he
    · obtain ⟨e, he, hpos'⟩ := hpos
      exact ⟨_, List.mem_map_of_mem _ he, hpos'⟩
  have hSf : 0 < ((path.zip path.tail).map (fun e => edgeDist dist e.1 e.2)).sum * fp :=
    mul_pos hS hfp
  refine ⟨?_, ?_, ?_⟩
  · intro c1 c2 hc1 hlt
    rw [edge_cost_sum_factor, edge_cost_sum_factor,
      max_eq_right (by linarith : (1 / 2 : ℚ) ≤ c1 / 1000),
      max_eq_right (by linarith : (1 / 2 : ℚ) ≤ c2 / 1000)]
    exact mul_lt_mul_of_pos_left (by linarith) hSf
  · intro c1 c2 hc1 hc2
    rw [edge_cost_sum_factor, edge_cost_sum_factor,
      max_eq_left (by linarith : (c1 / 1000 : ℚ) ≤ 1 / 2),
      max_eq_left (by linarith : (c2 / 1000 : ℚ) ≤ 1 / 2)]
  · intro c hc
    rw [edge_cost_sum_factor,
      max_eq_left (by linarith : (c / 1000 : ℚ) ≤ 1 / 2)]

/-- C6 witness: a concrete one-edge path with distance 10 and fuel price 1:
capacity 600 < 700 gives strictly larger edge cost, capacities 100 and 400
give equal edge cost. -/
theorem claim_C6_witness :
    (0 : ℚ) < 1 ∧
    (∀ e ∈ (["A", "B"] : List String).zip ["B"],
      0 ≤ edgeDist (fun _ _ => 10) e.1 e.2) ∧
    (∃ e ∈ (["A", "B"] : List String).zip ["B"],
      0 < edgeDist (fun _ _ => 10) e.1 e.2) ∧
    edge_cost_sum (fun _ _ => 10) ["A", "B"] 600 1
      < edge_cost_sum (fun _ _ => 10) ["A", "B"] 700 1 ∧
    edge_cost_sum (fun _ _ => 10) ["A", "B"] 100 1
      = edge_cost_sum (fun _ _ => 10) ["A", "B"] 400 1 :=
  ⟨by norm_num, by decide, by decide,
   (claim_C6 (fun _ _ => 10) ["A", "B"] 1 (by norm_num) (by decide) (by decide)).1
     600 700 (by norm_num) (by norm_num),
   (claim_C6 (fun _ _ => 10) ["A", "B"] 1 (by norm_num) (by decide) (by decide)).2.1
     100 400 (by norm_num) (by norm_num)⟩

end ShippingOptimizer
namespace ShippingOptimizer

/-- C4: the candidate set retains exactly the scored paths whose rounded
time is within the deadline: every retained candidate has
`time_h <= deadline`, and every enumerated path that was excluded has
`time_h > deadline`. -/
theorem claim_C4 (dist : String → String → ℚ) (g : List (String × List String))
    (origin destination : String) (capacity speed deadline fuel_price : ℚ)
    (overrides : String → Option ℚ) (fuel : Nat) :
    (∀ c ∈ optimize_candidates dist g origin destination capacity speed
        deadline fuel_price overrides fuel, c.time_h ≤ deadline) ∧
    (∀ p ∈ enumerate_simple_paths g origin destination 6 fuel,
      (∀ c ∈ optimize_candidates dist g origin destination capacity speed
          deadline fuel_price overrides fuel, c.path ≠ p) →
      deadline < (path_cost_and_time dist p capacity overrides speed
          fuel_price).time_h) := by
  constructor
  · intro c hc
    simp only [optimize_candidates, List.mem_filterMap] at hc
    obtain ⟨p, hp, hsome⟩ := hc
    split at hsome
    · cases hsome
      assumption
    · cases hsome
  · intro p hp hexcl
    by_contra h
    push_neg at h
    refine hexcl ⟨p, (path_cost_and_time dist p capacity overrides speed
      fuel_price).cost, (path_cost_and_time dist p capacity overrides speed
      fuel_price).time_h⟩ ?_ rfl
    simp only [optimize_candidates, List.mem_filterMap]
    exact ⟨p, hp, by rw [if_pos h]⟩

/-- C4 witness: a one-edge graph where the single enumerated path misses
the deadline and is therefore excluded. -/
theorem claim_C4_witness :
    (["A", "B"] ∈ enumerate_simple_paths [("A", ["B"])] "A" "B" 6 5) ∧
    (∀ c ∈ optimize_candidates (fun _ _ => 100) [("A", ["B"])] "A" "B"
        1000 10 5 1 (fun _ => none) 5, c.path ≠ ["A", "B"]) ∧
    (5 : ℚ) < (path_cost_and_time (fun _ _ => 100) ["A", "B"] 1000
        (fun _ => none) 10 1).time_h :=
  ⟨by decide, by with_unfolding_all decide,
   (claim_C4 (fun _ _ => 100) [("A", ["B"])] "A" "B" 1000 10 5 1
       (fun _ => none) 5).2 ["A", "B"] (by decide)
     (by with_unfolding_all decide)⟩

theorem insertByCost_perm (c : Candidate) (l : List Candidate) :
    List.Perm (insertByCost c l) (c :: l) := by
  induction l with
  | nil => exact List.Perm.refl _
  | cons d ds ih =>
    simp only [insertByCost]
    split
    · exact List.Perm.refl _
    · exact (ih.cons d).trans (List.Perm.swap c d ds)

theorem sortByCost_perm (l : List Candidate) : List.Perm (sortByCost l) l := by
  induction l with
  | nil => exact List.Perm.refl _
  | cons c l ih =>
    exact (insertByCost_perm c (sortByCost l)).trans (ih.cons c)

theorem sorted_insertByCost {c : Candidate} {l : List Candidate}
    (h : l.Sorted (fun a b => a.cost ≤ b.cost)) :
    (insertByCost c l).Sorted (fun a b => a.cost ≤ b.cost) := by
  induction l with
  | nil => simp [insertByCost]
  | cons d ds ih =>
    rw [List.sorted_cons] at h
    obtain ⟨hd, hds⟩ := h
    simp only [insertByCost]
    split
    · rename_i hcd
      rw [List.sorted_cons]
      refine ⟨?_, ?_⟩
      · intro b hb
        rcases List.mem_cons.mp hb with hbc | hb
        · exact hbc ▸ hcd
        · exact le_trans hcd (hd b hb)
      · rw [List.sorted_cons]
        exact ⟨hd, hds⟩
    · rename_i hcd
      rw [List.sorted_cons]
      refine ⟨?_, ih hds⟩
      intro b hb
      rcases List.mem_cons.mp ((insertByCost_perm c ds).mem_iff.mp hb) with hbc | hb'
      · exact hbc ▸ le_of_not_le hcd
      · exact hd b hb'

theorem sorted_sortByCost (l : List Candidate) :
    (sortByCost l).Sorted (fun a b => a.cost ≤ b.cost) := by
  induction l with
  | nil => simp [sortByCost]
  | cons c l ih => exact sorted_insertByCost ih

theorem sortByCost_head_min {l : List Candidate} {b : Candidate}
    (hb : (sortByCost l).head? = some b) : ∀ c ∈ l, b.cost ≤ c.cost := by
  intro c hc
  have hmem : c ∈ sortByCost l := (sortByCost_perm l).mem_iff.mpr hc
  have hsorted := sorted_sortByCost l
  cases hcs : sortByCost l with
  | nil => rw [hcs] at hb; cases hb
  | cons x rest =>
    rw [hcs] at hb hmem hsorted
    injection hb with hb
    subst hb
    rw [List.sorted_cons] at hsorted
    rcases List.mem_cons.mp hmem with hbc | hmem'
    · exact hbc ▸ le_refl _
    · exact hsorted.1 c hmem'

/-- C5: the best candidate (when present) has cost no greater than every
feasible candidate's cost, the returned candidate list is sorted ascending
by cost, and an empty feasible set yields `none` rather than an error. -/
theorem claim_C5 (dist : String → String → ℚ) (g : List (String × List String))
    (origin destination : String) (capacity speed deadline fuel_price : ℚ)
    (overrides : String → Option ℚ) (fuel : Nat) :
    (∀ b, best dist g origin destination capacity speed deadline fuel_price
        overrides fuel = some b →
      ∀ c ∈ optimize_candidates dist g origin destination capacity speed
          deadline fuel_price overrides fuel, b.cost ≤ c.cost) ∧
    (candidates_sorted dist g origin destination capacity speed deadline
        fuel_price overrides fuel).Sorted (fun a b => a.cost ≤ b.cost) ∧
    (optimize_candidates dist g origin destination capacity speed deadline
        fuel_price overrides fuel = [] →
      best dist g origin destination capacity speed deadline fuel_price
        overrides fuel = none) := by
  refine ⟨?_, sorted_sortByCost _, ?_⟩
  · intro b hb
    exact sortByCost_head_min hb
  · intro hempty
    unfold best candidates_sorted
    rw [hempty]
    rfl

set_option maxRecDepth 100000 in
/-- C5 witness: a two-route graph; the cheaper route is returned as best,
its cost is below the other feasible candidate's, and with an unreachable
destination the feasible set is empty and best is `none`. -/
theorem claim_C5_witness :
    best (fun _ _ => 100) [("A", ["B", "C"]), ("C", ["B"])] "A" "B"
        1000 10 1000 1 (fun _ => none) 10
      = some ⟨["A", "B"], 1100, 10⟩ ∧
    (⟨["A", "C", "B"], 1700, 20⟩ : Candidate) ∈
      optimize_candidates (fun _ _ => 100) [("A", ["B", "C"]), ("C", ["B"])]
        "A" "B" 1000 10 1000 1 (fun _ => none) 10 ∧
    (⟨["A", "B"], 1100, 10⟩ : Candidate).cost
      ≤ (⟨["A", "C", "B"], 1700, 20⟩ : Candidate).cost ∧
    optimize_candidates (fun _ _ => 100) [("A", ["B", "C"]), ("C", ["B"])]
        "A" "Z" 1000 10 1000 1 (fun _ => none) 10 = [] ∧
    best (fun _ _ => 100) [("A", ["B", "C"]), ("C", ["B"])] "A" "Z"
        1000 10 1000 1 (fun _ => none) 10 = none :=
  ⟨by with_unfolding_all decide, by with_unfolding_all decide,
   (claim_C5 (fun _ _ => 100) [("A", ["B", "C"]), ("C", ["B"])] "A" "B"
       1000 10 1000 1 (fun _ => none) 10).1 _ (by with_unfolding_all decide)
     _ (by with_unfolding_all decide),
   by with_unfolding_all decide,
   (claim_C5 (fun _ _ => 100) [("A", ["B", "C"]), ("C", ["B"])] "A" "Z"
       1000 10 1000 1 (fun _ => none) 10).2.2 (by with_unfolding_all decide)⟩

end ShippingOptimizer
namespace ShippingOptimizer

theorem overridesLoop_append (pf : List Char → Option ℚ)
    (pre : List (List Char)) (bad : List Char) (post : List (List Char)) :
    ∀ d, (∀ t ∈ pre, tokenOk pf t = true) → tokenOk pf bad = false →
      overridesLoop pf (pre ++ bad :: post) d = overridesLoop pf pre d := by
  induction pre with
  | nil =>
    intro d _ hbad
    simp only [List.nil_append, overridesLoop]
    unfold tokenOk at hbad
    cases hb : pySplit ':' bad with
    | nil => simp [overridesLoop, hb]
    | cons k rest =>
      cases rest with
      | nil => simp [overridesLoop, hb]
      | cons v rest2 =>
        cases rest2 with
        | nil =>
          rw [hb] at hbad
          simp only [] at hbad
          have hnone : pf v = none := by
            cases hpf : pf v with
            | none => rfl
            | some q => rw [hpf] at hbad; cases hbad
          simp [overridesLoop, hb, hnone]
        | cons w rest3 => simp [overridesLoop, hb]
  | cons t pre ih =>
    intro d hpre hbad
    have ht : tokenOk pf t = true := hpre t (List.mem_cons_self _ _)
    unfold tokenOk at ht
    cases hb : pySplit ':' t with
    | nil => rw [hb] at ht; cases ht
    | cons k rest =>
      cases rest with
      | nil => rw [hb] at ht; cases ht
      | cons v rest2 =>
        cases rest2 with
        | nil =>
          rw [hb] at ht
          obtain ⟨q, hq⟩ := Option.isSome_iff_exists.mp ht
          simp only [List.cons_append, overridesLoop, hb, hq]
          exact ih _ (fun u hu => hpre u (List.mem_cons_of_mem _ hu)) hbad
        | cons w rest3 => rw [hb] at ht; cases ht

set_option maxRecDepth 100000 in
/-- C2 counterexample: in `"HKG:600,BAD,SIN:700"` the token `SIN:700` is
well-formed, yet after the malformed token `BAD` it is never applied
(lookup of `SIN` yields nothing), while the earlier `HKG:600` is kept —
refuting the claim that every other well-formed token is still applied. -/
theorem claim_C2_counterexample :
    tokenOk decimalLit "SIN:700".toList = true ∧
    parse_overrides decimalLit "HKG:600,BAD,SIN:700".toList "SIN".toList = none ∧
    parse_overrides decimalLit "HKG:600,BAD,SIN:700".toList "HKG".toList
      = some 600 := by
  refine ⟨by decide, by decide, by with_unfolding_all decide⟩

/-- C2 (amended): parsing stops at the first malformed `code:value` token:
the entries before it are applied exactly as if the string ended there,
and the malformed entry together with every later entry is dropped; the
request itself is not aborted (the parse returns a dictionary). -/
theorem claim_C2_amended (pf : List Char → Option ℚ) (raw : List Char)
    (pre post : List (List Char)) (bad : List Char)
    (hsplit : pySplit ',' (pyStrip raw) = pre ++ bad :: post)
    (hpre : ∀ t ∈ pre, tokenOk pf t = true)
    (hbad : tokenOk pf bad = false) :
    parse_overrides pf raw = overridesLoop pf pre (fun _ => none) := by
  unfold parse_overrides
  by_cases hs : pyStrip raw = []
  · rw [hs] at hsplit
    have hsplit' : pre ++ bad :: post = [[]] := by
      rw [← hsplit]; rfl
    have hpre' : pre = [] ∧ bad = [] ∧ post = [] := by
      cases pre with
      | nil => simpa using hsplit'
      | cons a pre' =>
        simp only [List.cons_append, List.cons.injEq] at hsplit'
        exact absurd hsplit'.2 (by simp)
    rw [hpre'.1]
    simp [hs, overridesLoop]
  · rw [if_neg hs, hsplit]
    exact overridesLoop_append pf pre bad post _ hpre hbad

set_option maxRecDepth 100000 in
/-- C2 witness: the amended behaviour at the concrete input
`"HKG:600,BAD,SIN:700"`. -/
theorem claim_C2_amended_witness :
    pySplit ',' (pyStrip "HKG:600,BAD,SIN:700".toList)
      = ["HKG:600".toList] ++ "BAD".toList :: ["SIN:700".toList] ∧
    (∀ t ∈ (["HKG:600".toList] : List (List Char)),
      tokenOk decimalLit t = true) ∧
    tokenOk decimalLit "BAD".toList = false ∧
    parse_overrides decimalLit "HKG:600,BAD,SIN:700".toList
      = overridesLoop decimalLit ["HKG:600".toList] (fun _ => none) :=
  ⟨by decide, by decide, by decide,
   claim_C2_amended decimalLit _ ["HKG:600".toList] ["SIN:700".toList]
     "BAD".toList (by decide) (by decide) (by decide)⟩

end ShippingOptimizer
namespace ShippingOptimizer

theorem radians_sub (a b : ℝ) : radians (a - b) = radians a - radians b := by
  unfold radians
  ring

theorem haversine_a_eq (lat1 lon1 lat2 lon2 : ℝ) :
    haversine_a lat1 lon1 lat2 lon2
      = (1 - (Real.sin (radians lat1) * Real.sin (radians lat2)
          + Real.cos (radians lat1) * Real.cos (radians lat2)
            * Real.cos (radians lon2 - radians lon1))) / 2 := by
  simp only [haversine_a]
  rw [radians_sub lat2 lat1, radians_sub lon2 lon1]
  have e1 : radians lat2 - radians lat1
      = 2 * ((radians lat2 - radians lat1) / 2) := by ring
  have e2 : radians lon2 - radians lon1
      = 2 * ((radians lon2 - radians lon1) / 2) := by ring
  rw [Real.sin_sq_eq_half_sub, Real.sin_sq_eq_half_sub, ← e1, ← e2,
    Real.cos_sub]
  ring

theorem trig_inner_bound (x y z : ℝ) :
    |Real.sin x * Real.sin y + Real.cos x * Real.cos y * Real.cos z| ≤ 1 := by
  have hx := Real.sin_sq_add_cos_sq x
  have hy := Real.sin_sq_add_cos_sq y
  have hz1 := Real.neg_one_le_cos z
  have hz2 := Real.cos_le_one z
  have hcz : (0 : ℝ) ≤ (1 - Real.cos z) * (1 + Real.cos z) :=
    mul_nonneg (by linarith) (by linarith)
  rw [abs_le]
  constructor
  · nlinarith [sq_nonneg (Real.sin x + Real.sin y),
      sq_nonneg (Real.cos x + Real.cos y * Real.cos z),
      sq_nonneg (Real.cos y), hcz]
  · nlinarith [sq_nonneg (Real.sin x - Real.sin y),
      sq_nonneg (Real.cos x - Real.cos y * Real.cos z),
      sq_nonneg (Real.cos y), hcz]

theorem haversine_a_mem (lat1 lon1 lat2 lon2 : ℝ) :
    0 ≤ haversine_a lat1 lon1 lat2 lon2 ∧ haversine_a lat1 lon1 lat2 lon2 ≤ 1 := by
  rw [haversine_a_eq]
  have h := trig_inner_bound (radians lat1) (radians lat2)
    (radians lon2 - radians lon1)
  rw [abs_le] at h
  constructor
  · linarith [h.2]
  · linarith [h.1]

/-- C8: the intermediate value `a` of `haversine_km` always satisfies
`0 ≤ a` and `a ≤ 1` (hence `0 ≤ 1 - a`), so `math.sqrt(a)` and
`math.sqrt(1-a)` never receive a negative argument and the evaluation is
total for every coordinate input. -/
theorem claim_C8 (lat1 lon1 lat2 lon2 : ℝ) :
    0 ≤ haversine_a lat1 lon1 lat2 lon2 ∧
    haversine_a lat1 lon1 lat2 lon2 ≤ 1 ∧
    0 ≤ 1 - haversine_a lat1 lon1 lat2 lon2 := by
  obtain ⟨h0, h1⟩ := haversine_a_mem lat1 lon1 lat2 lon2
  exact ⟨h0, h1, by linarith⟩

theorem arctan_nonneg {x : ℝ} (hx : 0 ≤ x) : 0 ≤ Real.arctan x := by
  have := Real.arctan_strictMono.monotone hx
  rwa [Real.arctan_zero] at this

theorem atan2_nonneg {y x : ℝ} (hy : 0 ≤ y) (hx : 0 ≤ x) : 0 ≤ atan2 y x := by
  unfold atan2
  split
  · exact arctan_nonneg (div_nonneg hy (by linarith))
  · split
    · linarith
    · split
      · linarith [Real.pi_pos]
      · split
        · linarith
        · exact le_refl 0

theorem haversine_a_symm (lat1 lon1 lat2 lon2 : ℝ) :
    haversine_a lat1 lon1 lat2 lon2 = haversine_a lat2 lon2 lat1 lon1 := by
  rw [haversine_a_eq, haversine_a_eq]
  have e : radians lon1 - radians lon2 = -(radians lon2 - radians lon1) := by
    ring
  rw [e, Real.cos_neg]
  ring

theorem haversine_a_self (lat lon : ℝ) : haversine_a lat lon lat lon = 0 := by
  unfold haversine_a
  have h0 : radians (lat - lat) = 0 := by unfold radians; ring
  have h1 : radians (lon - lon) = 0 := by unfold radians; ring
  rw [h0, h1]
  simp

/-- C9: `haversine_km` is symmetric in its two coordinate pairs,
non-negative, and zero on two identical points. -/
theorem claim_C9 (lat1 lon1 lat2 lon2 : ℝ) :
    haversine_km lat1 lon1 lat2 lon2 = haversine_km lat2 lon2 lat1 lon1 ∧
    0 ≤ haversine_km lat1 lon1 lat2 lon2 ∧
    haversine_km lat1 lon1 lat1 lon1 = 0 := by
  refine ⟨?_, ?_, ?_⟩
  · unfold haversine_km
    rw [haversine_a_symm]
  · simp only [haversine_km]
    have hc := atan2_nonneg (Real.sqrt_nonneg (haversine_a lat1 lon1 lat2 lon2))
      (Real.sqrt_nonneg (1 - haversine_a lat1 lon1 lat2 lon2))
    linarith
  · simp only [haversine_km]
    rw [haversine_a_self]
    have h1 : Real.sqrt 0 = 0 := Real.sqrt_zero
    have h2 : Real.sqrt (1 - 0) = 1 := by
      rw [sub_zero, Real.sqrt_one]
    rw [h1, h2]
    have h3 : atan2 0 1 = 0 := by
      unfold atan2
      rw [if_pos (by norm_num : (0:ℝ) < 1)]
      rw [zero_div, Real.arctan_zero]
    rw [h3]
    ring

end ShippingOptimizer
